import Mathlib

/-!
Verification development for the `data_anonymizer` repository: a shallow
embedding, over `List Char` strings and `Nat` byte values, of the four
scripts `anonymize_2.py`, `combine_csv.py`, `encode_search.py` and
`search_anonymized.py`, together with theorems settling the spec claims.
-/

/-- Python strings are embedded as lists of characters. -/
abbrev Str := List Char

/-- The ASCII whitespace characters stripped by Python `str.strip()`. -/
def isPySpace (c : Char) : Bool :=
  (c == ' ') || (c == '\t') || (c == '\n') || (c == '\r') || (c == '\x0b') || (c == '\x0c')

/-- Python `str.lstrip()`: drop leading whitespace. -/
def pyLStrip (s : Str) : Str := s.dropWhile isPySpace

/-- Python `str.rstrip()`: drop trailing whitespace. -/
def pyRStrip (s : Str) : Str := (s.reverse.dropWhile isPySpace).reverse

/-- Python `str.strip()`: drop leading and trailing whitespace. -/
def pyStrip (s : Str) : Str := pyRStrip (pyLStrip s)

/-- Python `str.lower()` (ASCII case mapping). -/
def pyLower (s : Str) : Str := s.map Char.toLower

/-- Python `str.rstrip('\n\r')` as used on each input line of `anonymize_2.py`. -/
def rstripNewline (s : Str) : Str :=
  (s.reverse.dropWhile (fun c => (c == '\n') || (c == '\r'))).reverse

/-- UTF-8 encoding of a single character (Python `str.encode()` per code point). -/
def utf8EncodeChar (c : Char) : List Nat :=
  let n := c.toNat
  if n < 128 then [n]
  else if n < 2048 then [192 + n / 64, 128 + n % 64]
  else if n < 65536 then [224 + n / 4096, 128 + (n / 64) % 64, 128 + n % 64]
  else [240 + n / 262144, 128 + (n / 4096) % 64, 128 + (n / 64) % 64, 128 + n % 64]

/-- UTF-8 encoding of a string, as a list of byte values (Python `str.encode()`). -/
def utf8Encode (s : Str) : List Nat := (s.map utf8EncodeChar).flatten

/-! ### SHA-256 (`hashlib.sha256`), over `Nat` with explicit reduction mod 2^32 -/

/-- Reduce a natural number to a 32-bit word. -/
def w32 (n : Nat) : Nat := n % 4294967296

/-- Right rotation of a 32-bit word. -/
def rotr32 (n x : Nat) : Nat := w32 ((x >>> n) ||| (x <<< (32 - n)))

/-- SHA-256 big sigma-0. -/
def sigmaBig0 (x : Nat) : Nat := (rotr32 2 x) ^^^ (rotr32 13 x) ^^^ (rotr32 22 x)

/-- SHA-256 big sigma-1. -/
def sigmaBig1 (x : Nat) : Nat := (rotr32 6 x) ^^^ (rotr32 11 x) ^^^ (rotr32 25 x)

/-- SHA-256 small sigma-0. -/
def sigmaSmall0 (x : Nat) : Nat := (rotr32 7 x) ^^^ (rotr32 18 x) ^^^ (x >>> 3)

/-- SHA-256 small sigma-1. -/
def sigmaSmall1 (x : Nat) : Nat := (rotr32 17 x) ^^^ (rotr32 19 x) ^^^ (x >>> 10)

/-- SHA-256 choice function (bitwise complement written as xor with all-ones). -/
def shaCh (x y z : Nat) : Nat := (x &&& y) ^^^ ((x ^^^ 4294967295) &&& z)

/-- SHA-256 majority function. -/
def shaMaj (x y z : Nat) : Nat := (x &&& y) ^^^ (x &&& z) ^^^ (y &&& z)

/-- The 64 SHA-256 round constants. -/
def shaK : List Nat :=
  [1116352408, 1899447441, 3049323471, 3921009573, 961987163,
   1508970993, 2453635748, 2870763221, 3624381080, 310598401,
   607225278, 1426881987, 1925078388, 2162078206, 2614888103,
   3248222580, 3835390401, 4022224774, 264347078, 604807628,
   770255983, 1249150122, 1555081692, 1996064986, 2554220882,
   2821834349, 2952996808, 3210313671, 3336571891, 3584528711,
   113926993, 338241895, 666307205, 773529912, 1294757372,
   1396182291, 1695183700, 1986661051, 2177026350, 2456956037,
   2730485921, 2820302411, 3259730800, 3345764771, 3516065817,
   3600352804, 4094571909, 275423344, 430227734, 506948616,
   659060556, 883997877, 958139571, 1322822218, 1537002063,
   1747873779, 1955562222, 2024104815, 2227730452, 2361852424,
   2428436474, 2756734187, 3204031479, 3329325298]

/-- The eight 32-bit words of SHA-256 working state. -/
structure Sha8 where
  a : Nat
  b : Nat
  c : Nat
  d : Nat
  e : Nat
  f : Nat
  g : Nat
  h : Nat

/-- SHA-256 initial hash value. -/
def shaH0 : Sha8 :=
  ⟨1779033703, 3144134277, 1013904242, 2773480762,
   1359893119, 2600822924, 528734635, 1541459225⟩

/-- Big-endian byte serialization: `k` bytes of `n`, most significant first. -/
def beBytes : Nat → Nat → List Nat
  | 0, _ => []
  | k + 1, n => beBytes k (n / 256) ++ [n % 256]

/-- Interpret up to four bytes as a big-endian 32-bit word. -/
def be32 (bs : List Nat) : Nat := bs.foldl (fun acc b => acc * 256 + b) 0

/-- SHA-256 message padding: append `0x80`, zeros, and the 64-bit bit length. -/
def shaPad (msg : List Nat) : List Nat :=
  msg ++ [128] ++ List.replicate ((119 - msg.length % 64) % 64) 0 ++ beBytes 8 (msg.length * 8)

/-- Split a byte list into 64-byte blocks. -/
def toBlocks (l : List Nat) : List (List Nat) :=
  if h : l = [] then [] else l.take 64 :: toBlocks (l.drop 64)
termination_by l.length
decreasing_by
  simp only [List.length_drop]
  have := List.length_pos.mpr h
  omega

/-- Split a 64-byte block into sixteen big-endian 32-bit words. -/
def toWords (l : List Nat) : List Nat :=
  if h : l = [] then [] else be32 (l.take 4) :: toWords (l.drop 4)
termination_by l.length
decreasing_by
  simp only [List.length_drop]
  have := List.length_pos.mpr h
  omega

/-- Message-schedule extension: `acc` holds the words produced so far, most
recent first; the fuel counts the remaining words (48 for SHA-256). -/
def msgSchedAux (acc : List Nat) : Nat → List Nat
  | 0 => acc.reverse
  | n + 1 =>
    let x := w32 (sigmaSmall1 (acc.getD 1 0) + acc.getD 6 0 + sigmaSmall0 (acc.getD 14 0) + acc.getD 15 0)
    msgSchedAux (x :: acc) n

/-- The 64-word SHA-256 message schedule of a block's sixteen words. -/
def msgSched (ws : List Nat) : List Nat := msgSchedAux ws.reverse 48

/-- One SHA-256 compression round, consuming a (schedule word, constant) pair. -/
def shaRound (st : Sha8) (wk : Nat × Nat) : Sha8 :=
  let t1 := w32 (st.h + sigmaBig1 st.e + shaCh st.e st.f st.g + wk.2 + wk.1)
  let t2 := w32 (sigmaBig0 st.a + shaMaj st.a st.b st.c)
  ⟨w32 (t1 + t2), st.a, st.b, st.c, w32 (st.d + t1), st.e, st.f, st.g⟩

/-- SHA-256 compression of one 64-byte block into the running hash state. -/
def shaCompress (st : Sha8) (block : List Nat) : Sha8 :=
  let ws := msgSched (toWords block)
  let r := (ws.zip shaK).foldl shaRound st
  ⟨w32 (st.a + r.a), w32 (st.b + r.b), w32 (st.c + r.c), w32 (st.d + r.d),
   w32 (st.e + r.e), w32 (st.f + r.f), w32 (st.g + r.g), w32 (st.h + r.h)⟩

/-- SHA-256 digest of a byte string, as 32 bytes. -/
def sha256 (msg : List Nat) : List Nat :=
  let st := (toBlocks (shaPad msg)).foldl shaCompress shaH0
  beBytes 4 st.a ++ beBytes 4 st.b ++ beBytes 4 st.c ++ beBytes 4 st.d ++
  beBytes 4 st.e ++ beBytes 4 st.f ++ beBytes 4 st.g ++ beBytes 4 st.h

/-- The lowercase hexadecimal character for a digit value below 16. -/
def hexChar (n : Nat) : Char :=
  if n < 10 then Char.ofNat (48 + n) else Char.ofNat (87 + n)

/-- The two lowercase hexadecimal characters of a byte value. -/
def hexByte (b : Nat) : Str := [hexChar (b / 16), hexChar (b % 16)]

/-- Python `hashlib`'s `.hexdigest()`: the digest bytes in lowercase hex. -/
def hexdigest (bs : List Nat) : Str := (bs.map hexByte).flatten

/-! ### Basic length facts about the digest pipeline -/

theorem beBytes_length (k n : Nat) : (beBytes k n).length = k := by
  induction k generalizing n with
  | zero => rfl
  | succ k ih => simp [beBytes, ih]

theorem sha256_length (msg : List Nat) : (sha256 msg).length = 32 := by
  simp [sha256, beBytes_length]

theorem hexdigest_length (bs : List Nat) : (hexdigest bs).length = 2 * bs.length := by
  induction bs with
  | nil => rfl
  | cons b bs ih =>
    simp [hexdigest, hexByte] at ih ⊢
    omega

/-! ### Association-list helpers (embedding of Python `dict` operations) -/

theorem lookup_append_or {α β : Type} [BEq α] (l1 l2 : List (α × β)) (a : α) :
    (l1 ++ l2).lookup a = (l1.lookup a).or (l2.lookup a) := by
  induction l1 with
  | nil => simp
  | cons p ps ih =>
    obtain ⟨k, v⟩ := p
    cases h : a == k <;> simp [List.lookup, h, ih]

theorem lookup_isSome_iff {α β : Type} [BEq α] [LawfulBEq α]
    (d : List (α × β)) (a : α) :
    (d.lookup a).isSome = true ↔ a ∈ d.map Prod.fst := by
  induction d with
  | nil => simp [List.lookup]
  | cons p ps ih =>
    obtain ⟨k, v⟩ := p
    cases h : a == k
    · have hne : ¬ a = k := by simpa using h
      simp [List.lookup, h, ih, hne]
    · have he : a = k := by simpa using h
      simp [List.lookup, h, he]

/-- Python `dict` assignment `d[k] = v` on an insertion-ordered association
list: an existing key keeps its position and gets the new value; a new key is
appended at the end. -/
def dictSet {α β : Type} [BEq α] (d : List (α × β)) (k : α) (v : β) : List (α × β) :=
  if (d.lookup k).isSome then d.map (fun p => if p.1 == k then (k, v) else p)
  else d ++ [(k, v)]

theorem lookup_map_update_self {α β : Type} [BEq α] [LawfulBEq α]
    (d : List (α × β)) (k : α) (v : β) (hs : (d.lookup k).isSome = true) :
    (d.map (fun p => if p.1 == k then (k, v) else p)).lookup k = some v := by
  induction d with
  | nil => simp at hs
  | cons p ps ih =>
    obtain ⟨k0, v0⟩ := p
    by_cases hk : k = k0
    · subst hk
      simp [List.lookup_cons]
    · have h1 : (k0 == k) = false := by simp [Ne.symm hk]
      have h2 : (k == k0) = false := by simp [hk]
      simp only [List.lookup_cons, h2] at hs
      simp only [List.map_cons, h1, Bool.false_eq_true, if_false, List.lookup_cons, h2]
      exact ih hs

theorem lookup_map_update_other {α β : Type} [BEq α] [LawfulBEq α]
    (d : List (α × β)) (k : α) (v : β) (c : α) (hne : ¬ c = k) :
    (d.map (fun p => if p.1 == k then (k, v) else p)).lookup c = d.lookup c := by
  induction d with
  | nil => simp
  | cons p ps ih =>
    obtain ⟨k0, v0⟩ := p
    have hck : (c == k) = false := by simp [hne]
    by_cases hk : k0 = k
    · subst hk
      simp only [List.map_cons, beq_self_eq_true, if_true, List.lookup_cons, hck]
      exact ih
    · have h1 : (k0 == k) = false := by simp [hk]
      simp only [List.map_cons, h1, Bool.false_eq_true, if_false, List.lookup_cons]
      cases h2 : c == k0
      · exact ih
      · rfl

theorem lookup_dictSet_self {α β : Type} [BEq α] [LawfulBEq α]
    (d : List (α × β)) (k : α) (v : β) : (dictSet d k v).lookup k = some v := by
  unfold dictSet
  cases hs : (d.lookup k).isSome
  · simp only [hs, Bool.false_eq_true, if_false]
    rw [lookup_append_or]
    have hn : d.lookup k = none := by
      cases h : d.lookup k
      · rfl
      · rw [h] at hs
        simp at hs
    simp [hn, List.lookup_cons]
  · simp only [hs, if_true]
    exact lookup_map_update_self d k v hs

theorem lookup_dictSet_other {α β : Type} [BEq α] [LawfulBEq α]
    (d : List (α × β)) (k : α) (v : β) (c : α) (hne : ¬ c = k) :
    (dictSet d k v).lookup c = d.lookup c := by
  unfold dictSet
  cases hs : (d.lookup k).isSome
  · simp only [hs, Bool.false_eq_true, if_false]
    rw [lookup_append_or]
    have hck : (c == k) = false := by simp [hne]
    cases hdc : d.lookup c <;> simp [List.lookup_cons, hck]
  · simp only [hs, if_true]
    exact lookup_map_update_other d k v c hne

/-- `dictSet` never removes a key: a key with a binding still has one. -/
theorem lookup_dictSet_isSome {α β : Type} [BEq α] [LawfulBEq α]
    (d : List (α × β)) (k : α) (v : β) (c : α) (h : (d.lookup c).isSome) :
    ((dictSet d k v).lookup c).isSome := by
  by_cases hck : c = k
  · subst hck
    simp [lookup_dictSet_self]
  · rw [lookup_dictSet_other d k v c hck]
    exact h

/-! ### Splitting and joining on a delimiter (Python `str.split` / `str.join`) -/

/-- Python `line.split(sep)` for a one-character separator: every occurrence
separates fields, so the result always has one more field than there are
separators, and splitting the empty string yields one empty field. -/
def splitOnChar (sep : Char) : Str → List Str
  | [] => [[]]
  | c :: cs =>
    if c == sep then [] :: splitOnChar sep cs
    else
      match splitOnChar sep cs with
      | [] => [[c]]
      | x :: xs => (c :: x) :: xs

/-- Python `sep.join(parts)` for a one-character separator. -/
def joinChar (sep : Char) : List Str → Str
  | [] => []
  | [x] => x
  | x :: y :: xs => x ++ sep :: joinChar sep (y :: xs)

/-! ### `anonymize_2.py` -/

namespace Anonymize2

/-- `anonymize_value` of `anonymize_2.py`: SHA-256 hex digest of the
stripped, lowercased value. -/
def anonymize_value (value : Str) : Str :=
  hexdigest (sha256 (utf8Encode (pyLower (pyStrip value))))

/-- The per-line transformation of `process_file`: strip the line terminator;
a blank line passes through as a blank line; otherwise split on `#`, anonymize
each field and rejoin with `#`. -/
def processLine (line : Str) : Str :=
  let l := rstripNewline line
  if l.isEmpty then []
  else joinChar '#' ((splitOnChar '#' l).map anonymize_value)

/-- `process_file` of `anonymize_2.py`, on the list of input lines: one output
line per input line, in order. -/
def process_file (lines : List Str) : List Str := lines.map processLine

end Anonymize2

/-! ### `encode_search.py` -/

namespace EncodeSearch

/-- The truncation length configured in `encode_search.py`. -/
def HASH_LENGTH : Nat := 16

/-- `encode` of `encode_search.py`: empty or whitespace-only terms encode to
the empty string; otherwise strip, lowercase, SHA-256, hex-encode, and keep
the first `HASH_LENGTH` characters. -/
def encode (search_term : Str) : Str :=
  if search_term.isEmpty || (pyStrip search_term).isEmpty then []
  else (hexdigest (sha256 (utf8Encode (pyLower (pyStrip search_term))))).take HASH_LENGTH

end EncodeSearch

/-! ### `search_anonymized.py` -/

namespace SearchAnonymized

/-- The truncation length configured in `search_anonymized.py`. -/
def HASH_LENGTH : Nat := 16

/-- A row of an anonymized CSV as produced by `csv.DictReader`: an ordered
association from column name to value; `lookup` plays the role of `row.get`,
returning `none` for a missing column. -/
abbrev SRow := List (Str × Str)

/-- `encode_search_term` of `search_anonymized.py`. -/
def encode_search_term (search_term : Str) : Str :=
  if search_term.isEmpty || (pyStrip search_term).isEmpty then []
  else (hexdigest (sha256 (utf8Encode (pyLower (pyStrip search_term))))).take HASH_LENGTH

/-- The row loop of `search_csv`: `row_num` is the 1-based number of the next
row (Python `enumerate(reader, 1)`); a row matches when its value in the
searched column equals the encoded term. A match is annotated with its row
number. -/
def searchFrom (column enc : Str) : Nat → List SRow → List (Nat × SRow)
  | _, [] => []
  | row_num, row :: rest =>
    if row.lookup column == some enc then
      (row_num, row) :: searchFrom column enc (row_num + 1) rest
    else searchFrom column enc (row_num + 1) rest

/-- `search_csv` of `search_anonymized.py`, on the already-loaded data rows. -/
def search_csv (rows : List SRow) (column search_term : Str) : List (Nat × SRow) :=
  searchFrom column (encode_search_term search_term) 1 rows

end SearchAnonymized

/-! ### `combine_csv.py` -/

namespace CombineCsv

/-- `normalize_column_name` of `combine_csv.py`: lowercase, then strip. -/
def normalize_column_name (col_name : Str) : Str := pyStrip (pyLower col_name)

/-- Registering one header cell in the column mapping: a normalized key that
has not been seen keeps the cell's original text as its canonical display
name; a seen key leaves the mapping unchanged. -/
def addCol (m : List (Str × Str)) (col : Str) : List (Str × Str) :=
  let normalized := normalize_column_name col
  if (m.lookup normalized).isSome then m else m ++ [(normalized, col)]

/-- `get_unified_columns` of `combine_csv.py`, on the successfully read
headers in file-discovery order: an insertion-ordered association from
normalized column name to its first-seen original casing. -/
def get_unified_columns (headers : List (List Str)) : List (Str × Str) :=
  headers.foldl (fun m header => header.foldl addCol m) []

/-- The loop body of `read_csv_data` for one (original column, value) pair of
a source row: when the normalized source column name is in the mapping, the
corresponding canonical slot is overwritten with the value, with `none`
(Python `None`) replaced by the empty string; otherwise the pair is ignored. -/
def applySourcePair (column_mapping : List (Str × Str))
    (ur : List (Str × Str)) (p : Str × Option Str) : List (Str × Str) :=
  match column_mapping.lookup (normalize_column_name p.1) with
  | some unified_name => dictSet ur unified_name (p.2.getD [])
  | none => ur

/-- The per-row body of `read_csv_data`: the output row is pre-initialized
with every canonical display name mapped to the empty string, then each
(original column, value) pair of the source row is applied in order. -/
def read_csv_row (column_mapping : List (Str × Str))
    (row : List (Str × Option Str)) : List (Str × Str) :=
  let unified_row := column_mapping.map (fun p => (p.2, ([] : Str)))
  row.foldl (applySourcePair column_mapping) unified_row

/-- An input CSV file, as seen through `csv.reader`/`csv.DictReader`:
`header` is the first row when one could be read, and `rows` are the body
rows as (original column, value) associations keyed by that header. -/
structure CsvFile where
  header : Option (List Str)
  rows : List (List (Str × Option Str))
deriving DecidableEq

/-- `read_csv_data` of `combine_csv.py`: every body row of one file,
projected onto the unified columns. -/
def read_csv_data (column_mapping : List (Str × Str)) (f : CsvFile) :
    List (List (Str × Str)) :=
  f.rows.map (read_csv_row column_mapping)

/-- The dataset accumulated by `combine_csv_files`: the projected rows of
every file, concatenated in file-discovery order. -/
def combinedData (column_mapping : List (Str × Str)) (files : List CsvFile) :
    List (List (Str × Str)) :=
  files.foldl (fun all_data f => all_data ++ read_csv_data column_mapping f) []

/-- The filesystem-visible outcome of one run of `combine_csv_files`. -/
structure RunResult where
  deletedExisting : Bool
  wroteOutput : Bool
  outputExistsAfter : Bool
deriving DecidableEq

/-- `combine_csv_files` of `combine_csv.py`, as a function from the initial
state (does an output file of the configured name already exist; which CSV
files does the glob discover) to the run's filesystem-visible outcome. The
source deletes an existing output file unconditionally at the top of the
function, before the glob; each subsequent early return (no files, no
columns, no data) stops without writing. -/
def combine_csv_files (outputExists : Bool) (csv_files : List CsvFile) : RunResult :=
  let deletedExisting := outputExists
  if csv_files.isEmpty then ⟨deletedExisting, false, false⟩
  else
    let column_mapping := get_unified_columns (csv_files.filterMap CsvFile.header)
    if column_mapping.isEmpty then ⟨deletedExisting, false, false⟩
    else if (combinedData column_mapping csv_files).isEmpty then ⟨deletedExisting, false, false⟩
    else ⟨deletedExisting, true, true⟩

/-- The last (original column, value) pair of a source row that the
projection maps onto canonical column `c`: dictionary overwrite semantics
make the last matching pair win. -/
def lastOverwrite (column_mapping : List (Str × Str)) (c : Str)
    (row : List (Str × Option Str)) : Option (Str × Option Str) :=
  row.foldl (fun acc p =>
    if column_mapping.lookup (normalize_column_name p.1) == some c then some p else acc) none

end CombineCsv

/-! ### Stripping and lowercasing commute -/

theorem isPySpace_toLower (c : Char) : isPySpace (Char.toLower c) = isPySpace c := by
  unfold Char.toLower
  by_cases h : c.toNat ≥ 65 ∧ c.toNat ≤ 90
  · rw [if_pos h]
    have h1 : ∀ m, m < 123 → 97 ≤ m → isPySpace (Char.ofNat m) = false := by decide
    have h2 : isPySpace c = false := by
      unfold isPySpace
      have n1 : (c == ' ') = false := by
        refine beq_eq_false_iff_ne.mpr ?_
        intro he
        subst he
        exact absurd h (by decide)
      have n2 : (c == '\t') = false := by
        refine beq_eq_false_iff_ne.mpr ?_
        intro he
        subst he
        exact absurd h (by decide)
      have n3 : (c == '\n') = false := by
        refine beq_eq_false_iff_ne.mpr ?_
        intro he
        subst he
        exact absurd h (by decide)
      have n4 : (c == '\r') = false := by
        refine beq_eq_false_iff_ne.mpr ?_
        intro he
        subst he
        exact absurd h (by decide)
      have n5 : (c == '\x0b') = false := by
        refine beq_eq_false_iff_ne.mpr ?_
        intro he
        subst he
        exact absurd h (by decide)
      have n6 : (c == '\x0c') = false := by
        refine beq_eq_false_iff_ne.mpr ?_
        intro he
        subst he
        exact absurd h (by decide)
      simp [n1, n2, n3, n4, n5, n6]
    rw [h2, h1 (c.toNat + 32) (by omega) (by omega)]
  · simp [h]

theorem dropWhile_map_toLower (s : Str) :
    (s.map Char.toLower).dropWhile isPySpace = (s.dropWhile isPySpace).map Char.toLower := by
  induction s with
  | nil => rfl
  | cons c cs ih =>
    simp only [List.map_cons, List.dropWhile_cons, isPySpace_toLower]
    cases h : isPySpace c <;> simp [h, ih]

theorem pyStrip_pyLower (s : Str) : pyStrip (pyLower s) = pyLower (pyStrip s) := by
  unfold pyStrip pyLStrip pyRStrip pyLower
  rw [dropWhile_map_toLower, ← List.map_reverse, dropWhile_map_toLower, ← List.map_reverse]

/-! ### Length facts about the anonymizer and the encoder -/

theorem anonymize_value_length (v : Str) : (Anonymize2.anonymize_value v).length = 64 := by
  unfold Anonymize2.anonymize_value
  rw [hexdigest_length, sha256_length]

theorem encode_length (s : Str) :
    (EncodeSearch.encode s).length = 0 ∨ (EncodeSearch.encode s).length = 16 := by
  unfold EncodeSearch.encode
  cases h : (s.isEmpty || (pyStrip s).isEmpty)
  · right
    simp only [h, Bool.false_eq_true, if_false]
    rw [List.length_take, hexdigest_length, sha256_length]
    rfl
  · left
    simp [h]

/-- Claim C3: the Value Anonymizer produces exactly the hex SHA-256 digest of
the trimmed, lowercased value, a full 64 hex characters, and the Search-Term
Encoder applies the same normalization and hash but keeps only the first 16
characters of the same digest. -/
theorem claim_C3 (value : Str) :
    Anonymize2.anonymize_value value
      = hexdigest (sha256 (utf8Encode (pyStrip (pyLower value)))) ∧
    (Anonymize2.anonymize_value value).length = 64 ∧
    (pyStrip value ≠ [] →
      EncodeSearch.encode value = (Anonymize2.anonymize_value value).take 16) := by
  refine ⟨?_, anonymize_value_length value, ?_⟩
  · unfold Anonymize2.anonymize_value
    rw [pyStrip_pyLower]
  · intro h
    have h1 : value.isEmpty = false := by
      cases value
      · exact absurd rfl h
      · rfl
    have h2 : (pyStrip value).isEmpty = false := by
      cases hv : pyStrip value
      · exact absurd hv h
      · rfl
    unfold EncodeSearch.encode Anonymize2.anonymize_value EncodeSearch.HASH_LENGTH
    simp [h1, h2]

/-- Witness for C3 at the one-character input `a`. -/
theorem claim_C3_witness :
    pyStrip ['a'] ≠ [] ∧
    EncodeSearch.encode ['a'] = (Anonymize2.anonymize_value ['a']).take 16 :=
  ⟨by decide, (claim_C3 ['a']).2.2 (by decide)⟩

/-- Claim C6: the Search-Term Encoder of `encode_search.py` and the encoding
function of `search_anonymized.py` agree on every input, and both send empty
or whitespace-only input to the empty string. -/
theorem claim_C6 (s : Str) :
    EncodeSearch.encode s = SearchAnonymized.encode_search_term s ∧
    ((s = [] ∨ pyStrip s = []) → EncodeSearch.encode s = []) := by
  constructor
  · rfl
  · intro h
    unfold EncodeSearch.encode
    rcases h with h | h
    · subst h
      rfl
    · have h2 : (pyStrip s).isEmpty = true := by simp [h]
      simp [h2]

/-- Witness for C6 at the whitespace-only input of one space. -/
theorem claim_C6_witness :
    ((([' '] : Str) = [] ∨ pyStrip [' '] = []) ∧ EncodeSearch.encode [' '] = []) :=
  ⟨Or.inr (by decide), (claim_C6 [' ']).2 (Or.inr (by decide))⟩

/-- Claim C7: the Value Anonymizer emits exactly one output line per input
line in the same order, and every blank input line maps to a blank output
line. -/
theorem claim_C7 (lines : List Str) :
    (Anonymize2.process_file lines).length = lines.length ∧
    (∀ (i : Nat) (line : Str), lines[i]? = some line →
      (Anonymize2.process_file lines)[i]? = some (Anonymize2.processLine line)) ∧
    (∀ line, rstripNewline line = [] → Anonymize2.processLine line = []) := by
  refine ⟨?_, ?_, ?_⟩
  · simp [Anonymize2.process_file]
  · intro i line hget
    unfold Anonymize2.process_file
    rw [List.getElem?_map Anonymize2.processLine lines i, hget]
    rfl
  · intro line hblank
    unfold Anonymize2.processLine
    simp [hblank]

/-- Witness for C7 at a one-line input whose single line is blank. -/
theorem claim_C7_witness :
    (([([] : Str)] : List Str)[0]? = some ([] : Str)) ∧
    (Anonymize2.process_file [([] : Str)])[0]? = some (Anonymize2.processLine ([] : Str)) ∧
    rstripNewline ([] : Str) = [] ∧ Anonymize2.processLine ([] : Str) = [] :=
  ⟨rfl, (claim_C7 [[]]).2.1 0 [] rfl, rfl, (claim_C7 [[]]).2.2 [] rfl⟩

/-! ### Claim C2: the cross-component round-trip -/

/-- The 16-character digest of a raw value: the truncated hex SHA-256 digest
of its trimmed, lowercased form (the digest the Search-Term Encoder would
emit for non-blank input). -/
def digest16 (b : Str) : Str :=
  (hexdigest (sha256 (utf8Encode (pyLower (pyStrip b))))).take 16

/-- Counterexample to C2 as stated, at `a = b = "a"`: the right-hand side of
the claimed equivalence holds (the full digest starts with the 16-character
digest, and the normalized values are equal), but the two outputs are never
equal, having lengths 64 and 16. -/
theorem claim_C2_counterexample :
    ¬ (Anonymize2.anonymize_value ['a'] = EncodeSearch.encode ['a'] ↔
       ((∃ t, Anonymize2.anonymize_value ['a'] = digest16 ['a'] ++ t) ∧
        pyLower (pyStrip ['a']) = pyLower (pyStrip ['a']))) := by
  intro hiff
  have hpre : Anonymize2.anonymize_value ['a']
      = digest16 ['a'] ++ (Anonymize2.anonymize_value ['a']).drop 16 :=
    (List.take_append_drop 16 (Anonymize2.anonymize_value ['a'])).symm
  have hl := hiff.mpr ⟨⟨_, hpre⟩, rfl⟩
  have hlen := congrArg List.length hl
  rw [anonymize_value_length] at hlen
  rcases encode_length ['a'] with h | h <;> rw [h] at hlen <;> omega

/-- Claim C2, amended: an anonymized value never equals an encoded search
term (the outputs have length 64 versus 0 or 16); the forward implication of
the claimed equivalence is therefore vacuous, while whenever the raw values
agree after trim/lowercase normalization the full 64-character digest does
start with the 16-character digest. -/
theorem claim_C2 (a b : Str) :
    Anonymize2.anonymize_value a ≠ EncodeSearch.encode b ∧
    (pyLower (pyStrip a) = pyLower (pyStrip b) →
      ∃ t, Anonymize2.anonymize_value a = digest16 b ++ t) := by
  constructor
  · intro he
    have hlen := congrArg List.length he
    rw [anonymize_value_length] at hlen
    rcases encode_length b with h | h <;> rw [h] at hlen <;> omega
  · intro hnorm
    refine ⟨(Anonymize2.anonymize_value a).drop 16, ?_⟩
    unfold digest16
    rw [← hnorm]
    exact (List.take_append_drop 16 (Anonymize2.anonymize_value a)).symm

/-- Witness for the amended C2 at the normalization-equal pair `a`, `A`. -/
theorem claim_C2_witness :
    pyLower (pyStrip ['a']) = pyLower (pyStrip ['A']) ∧
    ∃ t, Anonymize2.anonymize_value ['a'] = digest16 ['A'] ++ t :=
  ⟨by decide, (claim_C2 ['a'] ['A']).2 (by decide)⟩

/-! ### Claim C9: digests contain no delimiter, so field counts are stable -/

theorem beBytes_lt (k n : Nat) : ∀ b ∈ beBytes k n, b < 256 := by
  induction k generalizing n with
  | zero => simp [beBytes]
  | succ k ih =>
    intro b hb
    rw [beBytes, List.mem_append] at hb
    rcases hb with h | h
    · exact ih (n / 256) b h
    · have : b = n % 256 := by simpa using h
      omega

theorem sha256_bytes_lt (msg : List Nat) : ∀ b ∈ sha256 msg, b < 256 := by
  intro b hb
  simp only [sha256, List.mem_append] at hb
  rcases hb with ((((((h | h) | h) | h) | h) | h) | h) | h <;> exact beBytes_lt _ _ _ h

theorem hash_not_mem_hexdigest (bs : List Nat) (hlt : ∀ b ∈ bs, b < 256) :
    '#' ∉ hexdigest bs := by
  intro hmem
  unfold hexdigest at hmem
  rw [List.mem_flatten] at hmem
  obtain ⟨l, hl, hc⟩ := hmem
  rw [List.mem_map] at hl
  obtain ⟨b, hb, rfl⟩ := hl
  have hblt := hlt b hb
  have hx : ∀ n, n < 16 → ¬ hexChar n = '#' := by decide
  simp only [hexByte, List.mem_cons, List.mem_singleton] at hc
  rcases hc with h | h | h
  · exact hx (b / 16) (by omega) h.symm
  · exact hx (b % 16) (by omega) h.symm
  · simp at h

theorem splitOnChar_ne_nil (sep : Char) (l : Str) : splitOnChar sep l ≠ [] := by
  cases l with
  | nil => simp [splitOnChar]
  | cons c cs =>
    unfold splitOnChar
    cases h : c == sep
    · simp only [h, Bool.false_eq_true, if_false]
      cases hs : splitOnChar sep cs <;> simp
    · simp [h]

theorem splitOnChar_no_sep (sep : Char) (l : Str) (h : sep ∉ l) :
    splitOnChar sep l = [l] := by
  induction l with
  | nil => rfl
  | cons c cs ih =>
    have hcs : sep ∉ cs := fun hm => h (List.mem_cons_of_mem _ hm)
    have hcne : (c == sep) = false := by
      refine beq_eq_false_iff_ne.mpr ?_
      intro he
      exact h (by simp [he])
    unfold splitOnChar
    rw [ih hcs]
    simp [hcne]

theorem splitOnChar_append_sep (sep : Char) (x rest : Str) (hx : sep ∉ x) :
    splitOnChar sep (x ++ sep :: rest) = x :: splitOnChar sep rest := by
  induction x with
  | nil =>
    rw [List.nil_append]
    conv_lhs => rw [splitOnChar.eq_def]
    simp
  | cons c cs ih =>
    have hcs : sep ∉ cs := fun hm => hx (List.mem_cons_of_mem _ hm)
    have h1 : (c == sep) = false := by
      refine beq_eq_false_iff_ne.mpr ?_
      intro he
      exact hx (by simp [he])
    rw [List.cons_append]
    conv_lhs => rw [splitOnChar.eq_def]
    simp only [h1, Bool.false_eq_true, if_false]
    rw [ih hcs]

theorem splitOnChar_joinChar (sep : Char) (xss : List Str) (hne : xss ≠ [])
    (h : ∀ xs ∈ xss, sep ∉ xs) : splitOnChar sep (joinChar sep xss) = xss := by
  induction xss with
  | nil => exact absurd rfl hne
  | cons x xs ih =>
    cases xs with
    | nil => exact splitOnChar_no_sep sep x (h x (by simp))
    | cons y ys =>
      rw [joinChar, splitOnChar_append_sep sep x _ (h x (by simp))]
      rw [ih (by simp) (fun z hz => h z (List.mem_cons_of_mem _ hz))]

/-- Claim C9: for a non-blank input line, the anonymized output line splits
on `#` into exactly as many fields as the input line, because every field
digest is made of hexadecimal characters and never contains the delimiter. -/
theorem claim_C9 (line : Str) (h : rstripNewline line ≠ []) :
    (splitOnChar '#' (Anonymize2.processLine line)).length
      = (splitOnChar '#' (rstripNewline line)).length := by
  unfold Anonymize2.processLine
  have hne : (rstripNewline line).isEmpty = false := by
    cases hv : rstripNewline line
    · exact absurd hv h
    · rfl
  simp only [hne, Bool.false_eq_true, if_false]
  rw [splitOnChar_joinChar '#' _ ?_ ?_]
  · rw [List.length_map]
  · simp [splitOnChar_ne_nil]
  · intro xs hxs
    rw [List.mem_map] at hxs
    obtain ⟨part, hp, rfl⟩ := hxs
    exact hash_not_mem_hexdigest _ (sha256_bytes_lt _)

/-- Witness for C9 at the non-blank one-character line `a`. -/
theorem claim_C9_witness :
    rstripNewline ['a'] ≠ [] ∧
    (splitOnChar '#' (Anonymize2.processLine ['a'])).length
      = (splitOnChar '#' (rstripNewline ['a'])).length :=
  ⟨by decide, claim_C9 ['a'] (by decide)⟩

/-! ### Claims C8 and C10: searching the anonymized CSV -/

theorem mem_enumFrom_snd {α : Type} (p : Nat × α) :
    ∀ (n : Nat) (l : List α), p ∈ List.enumFrom n l → p.2 ∈ l := by
  intro n l
  induction l generalizing n with
  | nil => simp [List.enumFrom]
  | cons x xs ih =>
    intro hp
    rcases List.mem_cons.mp hp with h | h
    · subst h
      simp
    · exact List.mem_cons_of_mem _ (ih (n + 1) h)

theorem searchFrom_eq_filter (column enc : Str) (n : Nat)
    (rows : List SearchAnonymized.SRow) :
    SearchAnonymized.searchFrom column enc n rows
      = (List.enumFrom n rows).filter (fun p => p.2.lookup column == some enc) := by
  induction rows generalizing n with
  | nil => rfl
  | cons r rs ih =>
    show SearchAnonymized.searchFrom column enc n (r :: rs)
      = List.filter _ ((n, r) :: List.enumFrom (n + 1) rs)
    rw [SearchAnonymized.searchFrom, List.filter_cons]
    cases h : r.lookup column == some enc <;> simp [h, ih]

/-- Claim C8: the single-column search returns exactly the ordered
subsequence of rows whose value in the searched column equals the encoded
term, annotated with 1-based row numbers; in particular a term whose encoding
matches no row yields the empty match list. -/
theorem claim_C8 (rows : List SearchAnonymized.SRow) (column term : Str) :
    SearchAnonymized.search_csv rows column term
      = (List.enumFrom 1 rows).filter
          (fun p => p.2.lookup column == some (SearchAnonymized.encode_search_term term)) ∧
    ((∀ row ∈ rows,
        row.lookup column ≠ some (SearchAnonymized.encode_search_term term)) →
      SearchAnonymized.search_csv rows column term = []) := by
  constructor
  · exact searchFrom_eq_filter column _ 1 rows
  · intro h
    unfold SearchAnonymized.search_csv
    rw [searchFrom_eq_filter]
    refine List.filter_eq_nil_iff.mpr ?_
    intro p hp
    have hm : p.2 ∈ rows := mem_enumFrom_snd p 1 rows hp
    simpa using h p.2 hm

/-- Witness for C8 at a one-row dataset whose only value differs from the
encoding of the empty search term. -/
theorem claim_C8_witness :
    (∀ row ∈ ([[(['c'], ['x'])]] : List SearchAnonymized.SRow),
      row.lookup ['c'] ≠ some (SearchAnonymized.encode_search_term [])) ∧
    SearchAnonymized.search_csv [[(['c'], ['x'])]] ['c'] [] = [] :=
  ⟨by decide, (claim_C8 [[(['c'], ['x'])]] ['c'] []).2 (by decide)⟩

/-- Claim C10: an empty or whitespace-only search term encodes to the empty
string, and the search then returns exactly the rows whose value in the
searched column is the empty string. -/
theorem claim_C10 (rows : List SearchAnonymized.SRow) (column term : Str)
    (h : term = [] ∨ pyStrip term = []) :
    SearchAnonymized.search_csv rows column term
      = (List.enumFrom 1 rows).filter
          (fun p => p.2.lookup column == some ([] : Str)) := by
  have henc : SearchAnonymized.encode_search_term term = [] := by
    unfold SearchAnonymized.encode_search_term
    rcases h with h | h
    · subst h
      rfl
    · have h2 : (pyStrip term).isEmpty = true := by simp [h]
      simp [h2]
  unfold SearchAnonymized.search_csv
  rw [henc, searchFrom_eq_filter]

/-- Witness for C10 at a whitespace-only term over a one-row dataset whose
value in the searched column is the empty string. -/
theorem claim_C10_witness :
    ((([' '] : Str) = [] ∨ pyStrip [' '] = []) ∧
     SearchAnonymized.search_csv [[(['c'], ([] : Str))]] ['c'] [' ']
       = (List.enumFrom 1 ([[(['c'], ([] : Str))]] : List SearchAnonymized.SRow)).filter
           (fun p => p.2.lookup ['c'] == some ([] : Str))) :=
  ⟨Or.inr (by decide),
   claim_C10 [[(['c'], ([] : Str))]] ['c'] [' '] (Or.inr (by decide))⟩

/-! ### Claim C4: the column mapping -/

theorem get_unified_columns_eq_foldl (headers : List (List Str)) :
    CombineCsv.get_unified_columns headers
      = headers.flatten.foldl CombineCsv.addCol [] := by
  unfold CombineCsv.get_unified_columns
  generalize ([] : List (Str × Str)) = m
  induction headers generalizing m with
  | nil => rfl
  | cons h hs ih =>
    rw [List.foldl_cons, List.flatten_cons, List.foldl_append]
    exact ih (h.foldl CombineCsv.addCol m)

theorem lookup_foldl_addCol (cols : List Str) (m : List (Str × Str)) (k : Str) :
    (cols.foldl CombineCsv.addCol m).lookup k
      = (m.lookup k).or
          (cols.find? (fun c => CombineCsv.normalize_column_name c == k)) := by
  induction cols generalizing m with
  | nil => simp
  | cons c cs ih =>
    rw [List.foldl_cons, ih (CombineCsv.addCol m c)]
    simp only [List.find?_cons]
    unfold CombineCsv.addCol
    cases hp : (CombineCsv.normalize_column_name c == k)
    · cases hs : (m.lookup (CombineCsv.normalize_column_name c)).isSome
      · simp only [hs, Bool.false_eq_true, if_false]
        rw [lookup_append_or, Option.or_assoc]
        have hk : (k == CombineCsv.normalize_column_name c) = false :=
          beq_eq_false_iff_ne.mpr (fun he => (beq_eq_false_iff_ne.mp hp) he.symm)
        simp [List.lookup_cons, hk]
      · simp [hs]
    · have hkc : k = CombineCsv.normalize_column_name c := (eq_of_beq hp).symm
      cases hs : (m.lookup (CombineCsv.normalize_column_name c)).isSome
      · simp only [hs, Bool.false_eq_true, if_false]
        rw [lookup_append_or, Option.or_assoc]
        have hmk : m.lookup k = none := by
          rw [hkc]
          cases hx : m.lookup (CombineCsv.normalize_column_name c)
          · rfl
          · rw [hx] at hs
            simp at hs
        have hk : (k == CombineCsv.normalize_column_name c) = true := by simp [hkc]
        simp [List.lookup_cons, hk, hmk]
      · simp only [hs, if_true]
        have hmk : ∃ v, m.lookup k = some v := by
          rw [hkc]
          cases hx : m.lookup (CombineCsv.normalize_column_name c)
          · rw [hx] at hs
            simp at hs
          · exact ⟨_, rfl⟩
        obtain ⟨v, hv⟩ := hmk
        simp [hv]

theorem nodup_foldl_addCol (cols : List Str) (m : List (Str × Str))
    (hm : (m.map Prod.fst).Nodup) :
    ((cols.foldl CombineCsv.addCol m).map Prod.fst).Nodup := by
  induction cols generalizing m with
  | nil => exact hm
  | cons c cs ih =>
    rw [List.foldl_cons]
    apply ih
    unfold CombineCsv.addCol
    cases hs : (m.lookup (CombineCsv.normalize_column_name c)).isSome
    · simp only [hs, Bool.false_eq_true, if_false]
      rw [List.map_append]
      rw [List.nodup_append]
      refine ⟨hm, by simp, ?_⟩
      intro a ha hb
      have hb2 : a = CombineCsv.normalize_column_name c := by simpa using hb
      rw [hb2] at ha
      have : (m.lookup (CombineCsv.normalize_column_name c)).isSome = true :=
        (lookup_isSome_iff m _).mpr ha
      rw [this] at hs
      simp at hs
    · simp only [hs, if_true]
      exact hm

/-- Claim C4: the column mapping built by schema discovery has unique
normalized keys, maps each key to the first header cell (in file-discovery
order) whose normalization equals that key, and preserves first-insertion
order; in particular headers `["Name","City"]` then `["NAME","Age"]` unify to
the output header `["Name","City","Age"]`. -/
theorem claim_C4 (headers : List (List Str)) :
    ((CombineCsv.get_unified_columns headers).map Prod.fst).Nodup ∧
    (∀ k : Str, (CombineCsv.get_unified_columns headers).lookup k
        = headers.flatten.find? (fun c => CombineCsv.normalize_column_name c == k)) ∧
    (CombineCsv.get_unified_columns
        [[['N','a','m','e'], ['C','i','t','y']], [['N','A','M','E'], ['A','g','e']]]).map
        Prod.snd
      = [['N','a','m','e'], ['C','i','t','y'], ['A','g','e']] := by
  refine ⟨?_, ?_, by decide⟩
  · rw [get_unified_columns_eq_foldl]
    exact nodup_foldl_addCol headers.flatten [] (by simp)
  · intro k
    rw [get_unified_columns_eq_foldl, lookup_foldl_addCol]
    simp

/-! ### Claim C5: projected rows are column-complete -/

theorem foldl_if_acc {γ : Type} (q : γ → Bool) (l : List γ) (a : Option γ) :
    l.foldl (fun acc p => if q p then some p else acc) a
      = (l.foldl (fun acc p => if q p then some p else acc) none).or a := by
  induction l generalizing a with
  | nil => simp
  | cons p ps ih =>
    rw [List.foldl_cons, List.foldl_cons]
    cases hq : q p
    · simp only [hq, Bool.false_eq_true, if_false]
      exact ih a
    · simp only [hq, if_true]
      rw [ih (some p), Option.or_assoc]
      rfl

theorem lookup_init (m : List (Str × Str)) (c : Str) (hc : c ∈ m.map Prod.snd) :
    (m.map (fun p => (p.2, ([] : Str)))).lookup c = some [] := by
  induction m with
  | nil => simp at hc
  | cons p ps ih =>
    simp only [List.map_cons]
    rw [List.lookup_cons]
    cases h : c == p.2
    · have hmem : c ∈ ps.map Prod.snd := by
        have hc2 := hc
        simp only [List.map_cons, List.mem_cons] at hc2
        rcases hc2 with h1 | h1
        · exact absurd h1 (beq_eq_false_iff_ne.mp h)
        · exact h1
      simpa using ih hmem
    · rfl

theorem lookup_read_foldl (m : List (Str × Str)) (c : Str)
    (row : List (Str × Option Str)) :
    ∀ (ur : List (Str × Str)) (w : Str), ur.lookup c = some w →
    (row.foldl (CombineCsv.applySourcePair m) ur).lookup c
      = some (((row.foldl (fun acc p =>
          if m.lookup (CombineCsv.normalize_column_name p.1) == some c then some p
          else acc) none).map (fun p => p.2.getD [])).getD w) := by
  induction row with
  | nil =>
    intro ur w hur
    simpa using hur
  | cons p ps ih =>
    intro ur w hur
    simp only [List.foldl_cons]
    cases hm : m.lookup (CombineCsv.normalize_column_name p.1) with
    | none =>
      have hstep : CombineCsv.applySourcePair m ur p = ur := by
        unfold CombineCsv.applySourcePair
        rw [hm]
      rw [hstep]
      have hq : ((none : Option Str) == some c) = false := rfl
      simp only [hq, Bool.false_eq_true, if_false]
      exact ih ur w hur
    | some u =>
      by_cases huc : u = c
      · subst huc
        have hstep : CombineCsv.applySourcePair m ur p = dictSet ur u (p.2.getD []) := by
          unfold CombineCsv.applySourcePair
          rw [hm]
        rw [hstep]
        simp only [beq_self_eq_true, if_true]
        rw [ih (dictSet ur u (p.2.getD [])) (p.2.getD [])
              (lookup_dictSet_self ur u (p.2.getD []))]
        rw [foldl_if_acc
              (fun p => m.lookup (CombineCsv.normalize_column_name p.1) == some u)
              ps (some p)]
        cases hX : ps.foldl (fun acc p =>
            if m.lookup (CombineCsv.normalize_column_name p.1) == some u then some p
            else acc) none
        · simp
        · simp
      · have hstep : CombineCsv.applySourcePair m ur p = dictSet ur u (p.2.getD []) := by
          unfold CombineCsv.applySourcePair
          rw [hm]
        rw [hstep]
        have hq : ((some u : Option Str) == some c) = false :=
          beq_eq_false_iff_ne.mpr (by simpa using huc)
        simp only [hq, Bool.false_eq_true, if_false]
        have hpres : (dictSet ur u (p.2.getD [])).lookup c = some w := by
          rw [lookup_dictSet_other ur u (p.2.getD []) c (fun he => huc he.symm)]
          exact hur
        exact ih (dictSet ur u (p.2.getD [])) w hpres

/-- Claim C5: a projected row has an entry for every canonical display name
of the column mapping; the entry is the empty string unless some source
column of the row normalizes onto that canonical name, in which case the last
such source value wins (with `none` replaced by the empty string). -/
theorem claim_C5 (m : List (Str × Str)) (row : List (Str × Option Str))
    (k c : Str) (h : (k, c) ∈ m) :
    (CombineCsv.read_csv_row m row).lookup c
      = some (((CombineCsv.lastOverwrite m c row).map
          (fun p => p.2.getD [])).getD []) := by
  have hc : c ∈ m.map Prod.snd := by
    have := List.mem_map_of_mem Prod.snd h
    simpa using this
  unfold CombineCsv.read_csv_row CombineCsv.lastOverwrite
  exact lookup_read_foldl m c row _ [] (lookup_init m c hc)

/-- Witness for C5 at a one-entry mapping and a one-cell source row. -/
theorem claim_C5_witness :
    ((['n'], ['N']) ∈ ([((['n'] : Str), (['N'] : Str))] : List (Str × Str)) ∧
    (CombineCsv.read_csv_row [((['n'] : Str), (['N'] : Str))]
        [((['n'] : Str), some (['x'] : Str))]).lookup ['N']
      = some (((CombineCsv.lastOverwrite [((['n'] : Str), (['N'] : Str))] ['N']
          [((['n'] : Str), some (['x'] : Str))]).map
          (fun p => p.2.getD [])).getD [])) :=
  ⟨by decide,
   claim_C5 [((['n'] : Str), (['N'] : Str))] [((['n'] : Str), some (['x'] : Str))]
     ['n'] ['N'] (by decide)⟩

/-! ### Claim C1: deletion of the existing output file -/

theorem combinedData_eq_nil (cm : List (Str × Str)) :
    ∀ (files : List CombineCsv.CsvFile), (∀ f ∈ files, f.rows = []) →
    ∀ acc, files.foldl (fun all_data f => all_data ++ CombineCsv.read_csv_data cm f) acc
      = acc := by
  intro files
  induction files with
  | nil =>
    intro _ acc
    rfl
  | cons f fs ih =>
    intro h acc
    rw [List.foldl_cons]
    have hf : f.rows = [] := h f (by simp)
    have hr : CombineCsv.read_csv_data cm f = [] := by
      unfold CombineCsv.read_csv_data
      rw [hf]
      rfl
    rw [hr, List.append_nil]
    exact ih (fun g hg => h g (by simp [hg])) acc

/-- Counterexample to C1 as stated: on a run where an output file already
exists and no CSV file is discovered (so the assembled dataset is empty), the
code has already deleted the pre-existing output file, so it is not left in
place and deletion is not restricted to the non-empty case. -/
theorem claim_C1_counterexample :
    ¬ ((CombineCsv.combine_csv_files true []).deletedExisting = false ∧
       (CombineCsv.combine_csv_files true []).outputExistsAfter = true) := by
  decide

/-- Claim C1, amended: a pre-existing output file is deleted unconditionally
at the start of every run, before file discovery; when the assembled dataset
is empty (no files, or no rows in any file) the run stops without writing, so
afterwards no output file of the configured name exists. -/
theorem claim_C1 (outputExists : Bool) (files : List CombineCsv.CsvFile)
    (h : ∀ f ∈ files, f.rows = []) :
    CombineCsv.combine_csv_files outputExists files
      = ⟨outputExists, false, false⟩ := by
  unfold CombineCsv.combine_csv_files
  cases hfe : files.isEmpty
  · simp only [hfe, Bool.false_eq_true, if_false]
    cases hme : (CombineCsv.get_unified_columns
        (files.filterMap CombineCsv.CsvFile.header)).isEmpty
    · have hcd : CombineCsv.combinedData
          (CombineCsv.get_unified_columns (files.filterMap CombineCsv.CsvFile.header))
          files = [] := by
        unfold CombineCsv.combinedData
        exact combinedData_eq_nil _ files h []
      simp only [hme, Bool.false_eq_true, if_false, hcd]
      rfl
    · simp only [hme, if_true]
  · simp only [hfe, if_true]

/-- Witness for the amended C1 at a run with a pre-existing output file and
no discovered CSV files. -/
theorem claim_C1_witness :
    (∀ f ∈ ([] : List CombineCsv.CsvFile), f.rows = []) ∧
    CombineCsv.combine_csv_files true [] = ⟨true, false, false⟩ :=
  ⟨by simp, claim_C1 true [] (by simp)⟩
